import Mathlib

/-!
Verification of the activation-histograms notebook
(`src/jupyter/activation_histograms.ipynb`) and the histogram-collection
behaviour it relies on.  Values of activation tensors are embedded as
rationals; tensors as lists.  The histogram binning, centroid and
collection routines live in the `distiller` library outside `src/` and
are modelled faithfully from the specification; the plotting and image
browsing code is translated directly from the notebook cells.
-/

namespace Distiller

/-- Modelled from the spec: clamping forces an out-of-range value to the
nearest boundary of `[vmin, vmax]` before binning. -/
def clampVal (vmin vmax v : ℚ) : ℚ :=
  max vmin (min v vmax)

/-- Modelled from the spec: the raw (unclamped) bin index of a value,
`floor ((v - min) / (max - min) * nbins)`. -/
def rawBin (vmin vmax : ℚ) (nbins : ℕ) (v : ℚ) : ℤ :=
  ⌊(v - vmin) / (vmax - vmin) * nbins⌋

/-- Modelled from the spec: histogram binning of a single value.  The value
is first clamped to `[vmin, vmax]`, then its raw bin index is computed and
clamped to the valid range `[0, nbins - 1]` (a value equal to `vmax` would
otherwise get raw index `nbins`). -/
def binOf (vmin vmax : ℚ) (nbins : ℕ) (v : ℚ) : ℕ :=
  (max 0 (min (rawBin vmin vmax nbins (clampVal vmin vmax v)) (nbins - 1))).toNat

/-- Modelled from the spec: bin edges are uniform over `[vmin, vmax]`:
the `i`-th edge is `vmin + i * (vmax - vmin) / nbins`. -/
def binEdge (vmin vmax : ℚ) (nbins : ℕ) (i : ℕ) : ℚ :=
  vmin + i * (vmax - vmin) / nbins

/-- Modelled from the spec: the centroid of bin `i` is the midpoint of its
two edges. -/
def binCentroid (vmin vmax : ℚ) (nbins : ℕ) (i : ℕ) : ℚ :=
  (binEdge vmin vmax nbins i + binEdge vmin vmax nbins (i + 1)) / 2

lemma clampVal_of_mem (vmin vmax v : ℚ) (h1 : vmin ≤ v) (h2 : v ≤ vmax) :
    clampVal vmin vmax v = v := by
  unfold clampVal
  rw [min_eq_left h2, max_eq_right h1]

lemma binCentroid_eq (vmin vmax : ℚ) (nbins : ℕ) (hn : 1 ≤ nbins) (i : ℕ) :
    binCentroid vmin vmax nbins i = vmin + (i + 1 / 2) * (vmax - vmin) / nbins := by
  have hn0 : (nbins : ℚ) ≠ 0 := Nat.cast_ne_zero.mpr (by omega)
  unfold binCentroid binEdge
  field_simp
  ring

/-- C1: for every value `v` with `min ≤ v ≤ max` and every `nbins ≥ 1`, the
binning assigns `v` to exactly one bin, whose index equals
`floor ((v - min) / (max - min) * nbins)` clamped to `[0, nbins - 1]`;
moreover the resulting index always lies in `[0, nbins - 1]`. -/
theorem binOf_in_range_eq_clamped_floor (vmin vmax v : ℚ) (nbins : ℕ)
    (h1 : vmin ≤ v) (h2 : v ≤ vmax) (hn : 1 ≤ nbins) :
    (binOf vmin vmax nbins v : ℤ) = max 0 (min (rawBin vmin vmax nbins v) (nbins - 1)) ∧
      binOf vmin vmax nbins v ≤ nbins - 1 := by
  have hclamp : clampVal vmin vmax v = v := clampVal_of_mem vmin vmax v h1 h2
  have hkey : (binOf vmin vmax nbins v : ℤ) =
      max 0 (min (rawBin vmin vmax nbins v) (nbins - 1)) := by
    unfold binOf
    rw [hclamp]
    exact Int.toNat_of_nonneg (le_max_left _ _)
  refine ⟨hkey, ?_⟩
  have hub : (binOf vmin vmax nbins v : ℤ) ≤ (nbins : ℤ) - 1 := by
    rw [hkey]
    apply max_le
    · omega
    · exact min_le_right _ _
  omega

/-- C1 witness: with `min = 0`, `max = 10`, `nbins = 5`, the value `9.9`
satisfies the range hypotheses and is assigned to bin `4`. -/
theorem binOf_in_range_eq_clamped_floor_witness :
    (0 : ℚ) ≤ 99 / 10 ∧ (99 : ℚ) / 10 ≤ 10 ∧ binOf 0 10 5 (99 / 10) = 4 := by
  have h1 : (0 : ℚ) ≤ 99 / 10 := by norm_num
  have h2 : (99 : ℚ) / 10 ≤ 10 := by norm_num
  have h := binOf_in_range_eq_clamped_floor 0 10 (99 / 10) 5 h1 h2 (by norm_num)
  refine ⟨h1, h2, ?_⟩
  have hraw : rawBin 0 10 5 (99 / 10) = 4 := by
    unfold rawBin
    rw [Int.floor_eq_iff]
    constructor <;> norm_num
  have h4 : (binOf 0 10 5 (99 / 10) : ℤ) = 4 := by
    rw [h.1, hraw]
    norm_num
  exact_mod_cast h4

/-- C2: every value below `min` is clamped into bin `0` and every value above
`max` is clamped into bin `nbins - 1`; out-of-range values are binned (never
discarded, never faulting — `binOf` is a total function). -/
theorem binOf_out_of_range_clamped (vmin vmax v : ℚ) (nbins : ℕ)
    (hlt : vmin < vmax) (hn : 1 ≤ nbins) :
    (v < vmin → binOf vmin vmax nbins v = 0) ∧
      (vmax < v → binOf vmin vmax nbins v = nbins - 1) := by
  constructor
  · intro hv
    have hclamp : clampVal vmin vmax v = vmin := by
      unfold clampVal
      rw [min_eq_left (le_of_lt (lt_trans hv hlt)), max_eq_left (le_of_lt hv)]
    have hraw : rawBin vmin vmax nbins vmin = 0 := by
      unfold rawBin
      simp
    unfold binOf
    rw [hclamp, hraw]
    have : min (0 : ℤ) ((nbins : ℤ) - 1) = 0 := by omega
    rw [this]
    simp
  · intro hv
    have hclamp : clampVal vmin vmax v = vmax := by
      unfold clampVal
      rw [min_eq_right (le_of_lt hv), max_eq_right (le_of_lt hlt)]
    have hraw : rawBin vmin vmax nbins vmax = nbins := by
      unfold rawBin
      rw [div_self (by linarith), one_mul]
      exact Int.floor_natCast nbins
    unfold binOf
    rw [hclamp, hraw]
    have hmin : min ((nbins : ℤ)) ((nbins : ℤ) - 1) = (nbins : ℤ) - 1 := by omega
    rw [hmin]
    have hmax : max (0 : ℤ) ((nbins : ℤ) - 1) = (nbins : ℤ) - 1 := by omega
    rw [hmax]
    omega

/-- C2 witness: with `min = 0`, `max = 10`, `nbins = 5`, the value `11` lands
in bin `4` and the value `-1` lands in bin `0`. -/
theorem binOf_out_of_range_clamped_witness :
    binOf 0 10 5 11 = 4 ∧ binOf 0 10 5 (-1) = 0 := by
  have h11 := binOf_out_of_range_clamped 0 10 11 5 (by norm_num) (by norm_num)
  have hm1 := binOf_out_of_range_clamped 0 10 (-1) 5 (by norm_num) (by norm_num)
  exact ⟨h11.2 (by norm_num), hm1.1 (by norm_num)⟩

/-- C3: bin edges are uniform over `[min, max]` (edge `0` is `min`, edge
`nbins` is `max`, consecutive edges differ by the constant bin width) and the
centroid of bin `i` equals `min + (i + 0.5) * (max - min) / nbins`. -/
theorem binCentroid_formula (vmin vmax : ℚ) (nbins : ℕ) (hn : 1 ≤ nbins) :
    binEdge vmin vmax nbins 0 = vmin ∧
      binEdge vmin vmax nbins nbins = vmax ∧
      (∀ i : ℕ, binEdge vmin vmax nbins (i + 1) - binEdge vmin vmax nbins i =
        (vmax - vmin) / nbins) ∧
      (∀ i : ℕ, binCentroid vmin vmax nbins i =
        vmin + (i + 1 / 2) * (vmax - vmin) / nbins) := by
  have hn0 : (nbins : ℚ) ≠ 0 := Nat.cast_ne_zero.mpr (by omega)
  refine ⟨?_, ?_, ?_, fun i => binCentroid_eq vmin vmax nbins hn i⟩
  · unfold binEdge
    simp
  · unfold binEdge
    field_simp
  · intro i
    unfold binEdge
    push_cast
    field_simp
    ring

/-- C3 witness: with `min = 0`, `max = 10`, `nbins = 5`, edge `0` is `0`,
edge `5` is `10`, and the centroid of bin `4` is `9`. -/
theorem binCentroid_formula_witness :
    binEdge 0 10 5 0 = 0 ∧ binEdge 0 10 5 5 = 10 ∧ binCentroid 0 10 5 4 = 9 := by
  have h := binCentroid_formula 0 10 5 (by norm_num)
  refine ⟨h.1, h.2.1, ?_⟩
  rw [h.2.2.2 4]
  norm_num

/-- Per-tensor histogram entry, as in the notebook's documented result
structure: a tensor of bin counts (`hist`) and a tensor of the activation
values at the center of each bin (`bin_centroids`). -/
structure TensorHist where
  hist : List ℕ
  bin_centroids : List ℚ
deriving DecidableEq

/-- Modelled from the spec: collecting the histogram of one tensor over the
stream of sampled values — bin `i` counts the samples binned to index `i`,
and the centroids are those of the uniform bins. -/
def collectTensorHist (vmin vmax : ℚ) (nbins : ℕ) (samples : List ℚ) : TensorHist where
  hist := (List.range nbins).map
    (fun i => (samples.filter (fun v => binOf vmin vmax nbins v == i)).length)
  bin_centroids := (List.range nbins).map (fun i => binCentroid vmin vmax nbins i)

lemma binCentroid_strict_mono (vmin vmax : ℚ) (nbins : ℕ) (hlt : vmin < vmax)
    (i j : ℕ) (hij : i < j) (hj : j < nbins) :
    binCentroid vmin vmax nbins i < binCentroid vmin vmax nbins j := by
  have hn : 1 ≤ nbins := by omega
  rw [binCentroid_eq vmin vmax nbins hn i, binCentroid_eq vmin vmax nbins hn j]
  have hnq : (0 : ℚ) < nbins := by exact_mod_cast (by omega : 0 < nbins)
  have hij' : (i : ℚ) < j := by exact_mod_cast hij
  have hd : (0 : ℚ) < vmax - vmin := by linarith
  have h1 : ((i : ℚ) + 1 / 2) * (vmax - vmin) < ((j : ℚ) + 1 / 2) * (vmax - vmin) := by
    nlinarith
  have hinv : (0 : ℚ) < (nbins : ℚ)⁻¹ := inv_pos.mpr hnq
  calc vmin + ((i : ℚ) + 1 / 2) * (vmax - vmin) / nbins
      = vmin + ((i : ℚ) + 1 / 2) * (vmax - vmin) * (nbins : ℚ)⁻¹ := by ring
    _ < vmin + ((j : ℚ) + 1 / 2) * (vmax - vmin) * (nbins : ℚ)⁻¹ := by
        have := mul_lt_mul_of_pos_right h1 hinv
        linarith
    _ = vmin + ((j : ℚ) + 1 / 2) * (vmax - vmin) / nbins := by ring

/-- C4: every per-tensor entry produced by a collection run has bin-count and
bin-centroid sequences of equal length `nbins`, strictly increasing
centroids, and non-negative integer counts. -/
theorem collectTensorHist_invariants (vmin vmax : ℚ) (nbins : ℕ) (samples : List ℚ)
    (hlt : vmin < vmax) :
    (collectTensorHist vmin vmax nbins samples).hist.length = nbins ∧
      (collectTensorHist vmin vmax nbins samples).bin_centroids.length = nbins ∧
      (collectTensorHist vmin vmax nbins samples).bin_centroids.Pairwise (· < ·) ∧
      ∀ c ∈ (collectTensorHist vmin vmax nbins samples).hist, 0 ≤ (c : ℤ) := by
  refine ⟨by simp [collectTensorHist], by simp [collectTensorHist], ?_, ?_⟩
  · unfold collectTensorHist
    simp only [List.pairwise_map]
    apply List.Pairwise.imp_of_mem ?_ (List.pairwise_lt_range nbins)
    intro i j hi hj hij
    exact binCentroid_strict_mono vmin vmax nbins hlt i j hij (List.mem_range.mp hj)
  · intro c _
    exact Int.ofNat_nonneg c

/-- C4 witness: the invariants hold for the concrete collection run with
`min = 0`, `max = 10`, `nbins = 5` over the samples `[9.9, 11, -1]`. -/
theorem collectTensorHist_invariants_witness :
    (0 : ℚ) < 10 ∧
      ((collectTensorHist 0 10 5 [99 / 10, 11, -1]).hist.length = 5 ∧
        (collectTensorHist 0 10 5 [99 / 10, 11, -1]).bin_centroids.length = 5 ∧
        (collectTensorHist 0 10 5 [99 / 10, 11, -1]).bin_centroids.Pairwise (· < ·) ∧
        ∀ c ∈ (collectTensorHist 0 10 5 [99 / 10, 11, -1]).hist, 0 ≤ (c : ℤ)) :=
  ⟨by norm_num, collectTensorHist_invariants 0 10 5 [99 / 10, 11, -1] (by norm_num)⟩

/-- The normalization performed by `draw_hist` when `normed=True`:
`bin_counts = bin_counts / bin_counts.sum()`, i.e. the bin-count tensor is
divided elementwise by its total. -/
def normalizeCounts (counts : List ℚ) : List ℚ :=
  counts.map (fun c => c / counts.sum)

lemma sum_map_div (l : List ℚ) (s : ℚ) :
    (l.map (fun c => c / s)).sum = l.sum / s := by
  induction l with
  | nil => simp
  | cons a t ih => simp [ih, add_div]

lemma normalizeCounts_sum_of_ne (counts : List ℚ) (h : counts.sum ≠ 0) :
    (normalizeCounts counts).sum = 1 := by
  unfold normalizeCounts
  rw [sum_map_div, div_self h]

/-- C5 counterexample: the claim as stated fails on an all-zero bin-count
sequence — normalizing `[0, 0, 0, 0]` does not produce entries summing
to `1`. -/
theorem normalizeCounts_zero_total_counterexample :
    ¬ (normalizeCounts [0, 0, 0, 0]).sum = 1 := by
  simp [normalizeCounts]

/-- C5 (amended): provided the total of the counts is nonzero, normalizing a
bin-count sequence divides each count by the total of all counts and the
resulting entries sum to `1`; in particular `[10, 20, 30, 40]` normalizes to
`[0.1, 0.2, 0.3, 0.4]`. -/
theorem normalizeCounts_sum_one (counts : List ℚ) (h : counts.sum ≠ 0) :
    (normalizeCounts counts).sum = 1 :=
  normalizeCounts_sum_of_ne counts h

/-- C5 witness: the counts `[10, 20, 30, 40]` have nonzero total, normalize
exactly to `[0.1, 0.2, 0.3, 0.4]`, and those entries sum to `1`. -/
theorem normalizeCounts_sum_one_witness :
    ([10, 20, 30, 40] : List ℚ).sum ≠ 0 ∧
      normalizeCounts [10, 20, 30, 40] = [1 / 10, 2 / 10, 3 / 10, 4 / 10] ∧
      (normalizeCounts [10, 20, 30, 40]).sum = 1 :=
  ⟨by norm_num, by norm_num [normalizeCounts],
    normalizeCounts_sum_one [10, 20, 30, 40] (by norm_num)⟩

/-- A minimal IEEE-754-style result of a division: a finite value, a signed
infinity, or NaN. -/
inductive Flt where
  | val : ℚ → Flt
  | inf : Flt
  | neginf : Flt
  | nan : Flt
deriving DecidableEq

/-- IEEE-754-style division of two finite values, as performed elementwise
by the tensor division in `draw_hist`: `0 / 0` is NaN, `x / 0` for `x ≠ 0`
is a signed infinity, and otherwise the exact quotient. -/
def fdiv (a b : ℚ) : Flt :=
  if b = 0 then
    if a = 0 then Flt.nan else if 0 < a then Flt.inf else Flt.neginf
  else Flt.val (a / b)

/-- `draw_hist`'s unguarded normalization `bin_counts / bin_counts.sum()`
with the IEEE division semantics of the underlying tensor library made
explicit. -/
def normalizeCountsF (counts : List ℚ) : List Flt :=
  counts.map (fun c => fdiv c counts.sum)

lemma all_zero_of_sum_zero (l : List ℚ) (h0 : ∀ c ∈ l, 0 ≤ c) (hs : l.sum = 0) :
    ∀ c ∈ l, c = 0 := by
  induction l with
  | nil => simp
  | cons a t ih =>
    simp only [List.sum_cons] at hs
    have ha : 0 ≤ a := h0 a (by simp)
    have ht : 0 ≤ t.sum := List.sum_nonneg (fun c hc => h0 c (by simp [hc]))
    have ha0 : a = 0 := by linarith
    have hts : t.sum = 0 := by linarith
    intro c hc
    rcases List.mem_cons.mp hc with rfl | hct
    · exact ha0
    · exact ih (fun c hc => h0 c (by simp [hc])) hts c hct

/-- C9: on a non-negative bin-count sequence whose total is zero, the
unguarded division in `draw_hist` produces NaN in every entry rather than
raising an error, and the normalized counts sum to `1` exactly when the
total is positive. -/
theorem normalizeCountsF_nan_on_zero_total (counts : List ℚ)
    (h0 : ∀ c ∈ counts, 0 ≤ c) :
    (counts.sum = 0 → ∀ x ∈ normalizeCountsF counts, x = Flt.nan) ∧
      ((normalizeCounts counts).sum = 1 ↔ 0 < counts.sum) := by
  refine ⟨?_, ?_, ?_⟩
  · intro hs x hx
    unfold normalizeCountsF at hx
    rcases List.mem_map.mp hx with ⟨c, hc, rfl⟩
    have hc0 : c = 0 := all_zero_of_sum_zero counts h0 hs c hc
    simp [fdiv, hc0, hs]
  · intro h1
    by_contra hneg
    have hs0 : counts.sum = 0 := le_antisymm (not_lt.mp hneg) (List.sum_nonneg h0)
    rw [normalizeCounts, sum_map_div, hs0] at h1
    norm_num at h1
  · intro hpos
    exact normalizeCounts_sum_of_ne counts (ne_of_gt hpos)

/-- C9 witness: for the all-zero counts `[0, 0]`, every normalized entry is
NaN, and the rational normalization does not sum to `1`. -/
theorem normalizeCountsF_nan_on_zero_total_witness :
    (∀ c ∈ ([0, 0] : List ℚ), 0 ≤ c) ∧
      (([0, 0] : List ℚ).sum = 0 → ∀ x ∈ normalizeCountsF [0, 0], x = Flt.nan) ∧
      ((normalizeCounts ([0, 0] : List ℚ)).sum = 1 ↔ 0 < ([0, 0] : List ℚ).sum) :=
  ⟨by simp, normalizeCountsF_nan_on_zero_total [0, 0] (by simp)⟩

/-- Modelled from the spec: the two inference passes of histogram
collection. -/
inductive Pass where
  | statsPass : Pass
  | histPass : Pass
deriving DecidableEq

/-- Modelled from the spec: pass 1 computes the per-tensor min/max range
observed over the sampled values. -/
def computeStats (samples : List ℚ) : ℚ × ℚ :=
  (samples.foldr min (samples.headD 0), samples.foldr max (samples.headD 0))

/-- Modelled from the spec: `collect_histograms` runs a stats pass followed
by a histogram pass when no pre-computed stats are supplied, and only the
histogram pass when `activation_stats` is given; it returns the inference
passes that ran together with the collected per-tensor histogram. -/
def collect_histograms (activation_stats : Option (ℚ × ℚ)) (nbins : ℕ)
    (samples : List ℚ) : List Pass × TensorHist :=
  match activation_stats with
  | none =>
      let s := computeStats samples
      ([Pass.statsPass, Pass.histPass], collectTensorHist s.1 s.2 nbins samples)
  | some s => ([Pass.histPass], collectTensorHist s.1 s.2 nbins samples)

/-- C7: with no pre-computed stats, collection runs the stats pass and then
the histogram pass, the latter binning against the ranges the stats pass
computed; with caller-supplied stats, only the histogram pass runs, binning
against the supplied ranges. -/
theorem collect_histograms_two_pass (nbins : ℕ) (samples : List ℚ) :
    (collect_histograms none nbins samples).1 = [Pass.statsPass, Pass.histPass] ∧
      (collect_histograms none nbins samples).2 =
        collectTensorHist (computeStats samples).1 (computeStats samples).2 nbins samples ∧
      ∀ s : ℚ × ℚ, (collect_histograms (some s) nbins samples).1 = [Pass.histPass] ∧
        (collect_histograms (some s) nbins samples).2 =
          collectTensorHist s.1 s.2 nbins samples :=
  ⟨rfl, rfl, fun _ => ⟨rfl, rfl⟩⟩

/-- A layer's histogram entry: one `TensorHist` per input plus one for the
output, mirroring the documented result-dictionary structure. -/
structure LayerHist where
  inputs : List TensorHist
  output : TensorHist
deriving DecidableEq

/-- The histogram-results structure: layer name mapped to layer entry. -/
abbrev HistDict := List (String × LayerHist)

/-- Modelled from the spec: the tokens of the on-disk serialization of the
histogram-results structure written by the collection run and reloaded with
`torch.load`. -/
inductive Tok where
  | tnat : ℕ → Tok
  | trat : ℚ → Tok
  | tstr : String → Tok
deriving DecidableEq

/-- Serialize one per-tensor entry: length-prefixed bin counts followed by
length-prefixed bin centroids. -/
def encodeTensorHist (t : TensorHist) : List Tok :=
  Tok.tnat t.hist.length :: t.hist.map Tok.tnat ++
    Tok.tnat t.bin_centroids.length :: t.bin_centroids.map Tok.trat

def decodeNats : ℕ → List Tok → Option (List ℕ × List Tok)
  | 0, toks => some ([], toks)
  | n + 1, Tok.tnat k :: rest =>
      match decodeNats n rest with
      | some (ks, r) => some (k :: ks, r)
      | none => none
  | _ + 1, _ => none

def decodeRats : ℕ → List Tok → Option (List ℚ × List Tok)
  | 0, toks => some ([], toks)
  | n + 1, Tok.trat q :: rest =>
      match decodeRats n rest with
      | some (qs, r) => some (q :: qs, r)
      | none => none
  | _ + 1, _ => none

def decodeTensorHist : List Tok → Option (TensorHist × List Tok)
  | Tok.tnat hl :: rest =>
      match decodeNats hl rest with
      | some (hs, r1) =>
          match r1 with
          | Tok.tnat cl :: r2 =>
              match decodeRats cl r2 with
              | some (cs, r3) => some (⟨hs, cs⟩, r3)
              | none => none
          | _ => none
      | none => none
  | _ => none

/-- Serialize a layer entry: length-prefixed input entries followed by the
output entry. -/
def encodeLayerHist (l : LayerHist) : List Tok :=
  Tok.tnat l.inputs.length :: (l.inputs.map encodeTensorHist).flatten ++
    encodeTensorHist l.output

def decodeTensorHists : ℕ → List Tok → Option (List TensorHist × List Tok)
  | 0, toks => some ([], toks)
  | n + 1, toks =>
      match decodeTensorHist toks with
      | some (t, r) =>
          match decodeTensorHists n r with
          | some (ts, r2) => some (t :: ts, r2)
          | none => none
      | none => none

def decodeLayerHist : List Tok → Option (LayerHist × List Tok)
  | Tok.tnat n :: rest =>
      match decodeTensorHists n rest with
      | some (ins, r1) =>
          match decodeTensorHist r1 with
          | some (out, r2) => some (⟨ins, out⟩, r2)
          | none => none
      | none => none
  | _ => none

/-- Serialize the whole histogram dictionary: length-prefixed
name-and-entry records. -/
def encodeHistDict (d : HistDict) : List Tok :=
  Tok.tnat d.length :: (d.map (fun e => Tok.tstr e.1 :: encodeLayerHist e.2)).flatten

def decodeEntries : ℕ → List Tok → Option (HistDict × List Tok)
  | 0, toks => some ([], toks)
  | n + 1, Tok.tstr s :: rest =>
      match decodeLayerHist rest with
      | some (lh, r1) =>
          match decodeEntries n r1 with
          | some (es, r2) => some ((s, lh) :: es, r2)
          | none => none
      | none => none
  | _ + 1, _ => none

def decodeHistDict : List Tok → Option (HistDict × List Tok)
  | Tok.tnat n :: rest => decodeEntries n rest
  | _ => none

lemma decodeNats_encode (l : List ℕ) (r : List Tok) :
    decodeNats l.length (l.map Tok.tnat ++ r) = some (l, r) := by
  induction l with
  | nil => simp [decodeNats]
  | cons a t ih => simp [decodeNats, ih]

lemma decodeRats_encode (l : List ℚ) (r : List Tok) :
    decodeRats l.length (l.map Tok.trat ++ r) = some (l, r) := by
  induction l with
  | nil => simp [decodeRats]
  | cons a t ih => simp [decodeRats, ih]

lemma decodeTensorHist_encode (t : TensorHist) (r : List Tok) :
    decodeTensorHist (encodeTensorHist t ++ r) = some (t, r) := by
  obtain ⟨hs, cs⟩ := t
  simp [encodeTensorHist, decodeTensorHist, List.append_assoc,
    decodeNats_encode, decodeRats_encode]

lemma decodeTensorHists_encode (ts : List TensorHist) (r : List Tok) :
    decodeTensorHists ts.length ((ts.map encodeTensorHist).flatten ++ r) = some (ts, r) := by
  induction ts with
  | nil => simp [decodeTensorHists]
  | cons a t ih =>
      simp [decodeTensorHists, List.append_assoc, decodeTensorHist_encode, ih]

lemma decodeLayerHist_encode (l : LayerHist) (r : List Tok) :
    decodeLayerHist (encodeLayerHist l ++ r) = some (l, r) := by
  obtain ⟨ins, out⟩ := l
  simp [encodeLayerHist, decodeLayerHist, List.append_assoc,
    decodeTensorHists_encode, decodeTensorHist_encode]

lemma decodeEntries_encode (d : HistDict) (r : List Tok) :
    decodeEntries d.length
      ((d.map (fun e => Tok.tstr e.1 :: encodeLayerHist e.2)).flatten ++ r) = some (d, r) := by
  induction d with
  | nil => simp [decodeEntries]
  | cons a t ih =>
      simp [decodeEntries, List.append_assoc, decodeLayerHist_encode, ih]

/-- C6: serializing the histogram-results structure and reloading it is a
lossless round trip — decoding the encoding of any histogram dictionary
returns exactly the original structure, bin counts and bin centroids
included, with no tokens left over. -/
theorem histDict_round_trip (d : HistDict) :
    decodeHistDict (encodeHistDict d) = some (d, []) := by
  have h := decodeEntries_encode d []
  rw [List.append_nil] at h
  simpa [encodeHistDict, decodeHistDict] using h

/-- A heap of tensors: each address holds the value list of one tensor.
The collected histogram tensors live here; plotting must not modify them in
place. -/
abbrev Store := List (List ℚ)

/-- Allocate a fresh tensor, returning the extended store and the new
address. -/
def alloc (st : Store) (t : List ℚ) : Store × ℕ :=
  (st ++ [t], st.length)

/-- `tensor / scalar`: elementwise division, allocating a fresh result
tensor (the tensor library never divides in place here). -/
def tensorDivScalar (st : Store) (a : ℕ) (c : ℚ) : Store × ℕ :=
  alloc st ((st.getD a []).map (fun x => x / c))

/-- `tensor.sum()`. -/
def tensorSum (st : Store) (a : ℕ) : ℚ :=
  (st.getD a []).sum

/-- The data handed to `plt.fill_between` by one `draw_hist` call. -/
structure PlotCmd where
  title : String
  xs : List ℚ
  ys : List ℚ
  yscale : String
deriving DecidableEq

/-- The notebook's `draw_hist` on tensors living in the store: when `normed`
it rebinds its local `bin_counts` to the freshly allocated quotient tensor
`bin_counts / bin_counts.sum()`, then plots the centroids against the
(possibly normalized) counts. -/
def draw_hist (st : Store) (layer_name tensor_name : String)
    (bin_counts bin_centroids : ℕ) (normed : Bool) (yscale : String) :
    Store × PlotCmd :=
  let p := if normed then tensorDivScalar st bin_counts (tensorSum st bin_counts)
           else (st, bin_counts)
  (p.1, { title := layer_name ++ "\n" ++ tensor_name,
          xs := p.1.getD bin_centroids [],
          ys := p.1.getD p.2 [],
          yscale := yscale })

/-- Addresses of one tensor's histogram data in the store. -/
structure TensorHistRef where
  hist : ℕ
  bin_centroids : ℕ
deriving DecidableEq

/-- Addresses of a layer's histogram entry: one per input plus the
output. -/
structure LayerHistRef where
  inputs : List TensorHistRef
  output : TensorHistRef
deriving DecidableEq

/-- One step of `draw_layer`'s loop over the layer's input histograms. -/
def drawInputsStep (layer_name : String) (normed : Bool) (yscale : String)
    (acc : Store × List PlotCmd) (i : ℕ × TensorHistRef) : Store × List PlotCmd :=
  let r := draw_hist acc.1 layer_name ("input_" ++ toString i.1)
    i.2.hist i.2.bin_centroids normed yscale
  (r.1, acc.2 ++ [r.2])

/-- The notebook's `draw_layer`: draw each input histogram of the selected
layer in index order, then the output histogram. -/
def draw_layer (st : Store) (layer_name : String) (data : LayerHistRef)
    (normed : Bool) (yscale : String) : Store × List PlotCmd :=
  let acc := data.inputs.enum.foldl (drawInputsStep layer_name normed yscale) (st, [])
  let r := draw_hist acc.1 layer_name "output"
    data.output.hist data.output.bin_centroids normed yscale
  (r.1, acc.2 ++ [r.2])

/-- One interactive plotting action: a direct `draw_hist` call or a
`draw_layer` call. -/
inductive DrawCall where
  | hist : String → String → ℕ → ℕ → Bool → String → DrawCall
  | layer : String → LayerHistRef → Bool → String → DrawCall

/-- Run any number of plotting actions against the store. -/
def runDrawCalls (st : Store) : List DrawCall → Store
  | [] => st
  | c :: rest =>
      runDrawCalls
        (match c with
         | DrawCall.hist ln tn bc bcent n ys => (draw_hist st ln tn bc bcent n ys).1
         | DrawCall.layer ln data n ys => (draw_layer st ln data n ys).1)
        rest

lemma draw_hist_fst_extends (st : Store) (ln tn : String) (bc bcent : ℕ)
    (n : Bool) (ys : String) : st <+: (draw_hist st ln tn bc bcent n ys).1 := by
  unfold draw_hist tensorDivScalar alloc
  cases n
  · simp
  · simp

lemma foldl_drawInputsStep_extends (ln : String) (n : Bool) (ys : String)
    (l : List (ℕ × TensorHistRef)) (acc : Store × List PlotCmd) :
    acc.1 <+: (l.foldl (drawInputsStep ln n ys) acc).1 := by
  induction l generalizing acc with
  | nil => exact List.prefix_refl _
  | cons a t ih =>
      rw [List.foldl_cons]
      exact List.IsPrefix.trans
        (draw_hist_fst_extends acc.1 ln ("input_" ++ toString a.1)
          a.2.hist a.2.bin_centroids n ys)
        (ih (drawInputsStep ln n ys acc a))

lemma draw_layer_fst_extends (st : Store) (ln : String) (data : LayerHistRef)
    (n : Bool) (ys : String) : st <+: (draw_layer st ln data n ys).1 := by
  unfold draw_layer
  exact List.IsPrefix.trans
    (foldl_drawInputsStep_extends ln n ys data.inputs.enum (st, []))
    (draw_hist_fst_extends _ ln "output" data.output.hist data.output.bin_centroids n ys)

lemma runDrawCalls_extends (calls : List DrawCall) (st : Store) :
    st <+: runDrawCalls st calls := by
  induction calls generalizing st with
  | nil => exact List.prefix_refl st
  | cons c t ih =>
      refine List.IsPrefix.trans ?_ (ih _)
      cases c with
      | hist ln tn bc bcent n ys => exact draw_hist_fst_extends st ln tn bc bcent n ys
      | layer ln data n ys => exact draw_layer_fst_extends st ln data n ys

/-- C8: any number of `draw_hist`/`draw_layer` calls only extend the tensor
store — every tensor that existed before the calls (in particular each
collected bin-count and bin-centroid tensor) holds exactly the same values
afterwards; normalization writes to a freshly allocated tensor, never in
place. -/
theorem draw_calls_preserve_store (st : Store) (calls : List DrawCall) :
    st <+: runDrawCalls st calls ∧
      ∀ a, a < st.length → (runDrawCalls st calls).getD a [] = st.getD a [] := by
  have hpre : st <+: runDrawCalls st calls := runDrawCalls_extends calls st
  refine ⟨hpre, fun a ha => ?_⟩
  obtain ⟨t, ht⟩ := hpre
  rw [← ht]
  exact List.getD_append st t [] a ha

/-- C8 witness: a concrete store of two tensors is preserved by a normalized
`draw_hist` call followed by a `draw_layer` call on the same addresses. -/
theorem draw_calls_preserve_store_witness :
    ([[1, 2], [3]] : Store) <+:
        runDrawCalls [[1, 2], [3]]
          [DrawCall.hist "conv1" "output" 0 1 true "linear",
           DrawCall.layer "conv1" ⟨[⟨0, 1⟩], ⟨0, 1⟩⟩ true "log"] ∧
      (runDrawCalls [[1, 2], [3]]
          [DrawCall.hist "conv1" "output" 0 1 true "linear",
           DrawCall.layer "conv1" ⟨[⟨0, 1⟩], ⟨0, 1⟩⟩ true "log"]).getD 0 [] = [1, 2] :=
  ⟨(draw_calls_preserve_store [[1, 2], [3]] _).1,
    ((draw_calls_preserve_store [[1, 2], [3]] _).2 0 (by norm_num)).trans rfl⟩

/-- A directory entry as seen by the image browser: a name and whether it is
a regular file (as opposed to a subdirectory). -/
structure DirEntry where
  name : String
  isFile : Bool
deriving DecidableEq

/-- Whether a name begins with a dot (a hidden directory entry). -/
def startsWithDot (n : String) : Bool :=
  match n.data with
  | [] => false
  | c :: _ => c == '.'

/-- `glob.glob(os.path.join(imgs_dir, '*.*'))` name matching: `*.*` matches
any name containing a dot, except that a leading dot (hidden entry) is not
matched by `*`. -/
def globMatch (n : String) : Bool :=
  n.data.any (fun c => c == '.') && !startsWithDot n

/-- `os.path.join(imgs_dir, name)`. -/
def osPathJoin (d n : String) : String :=
  d ++ "/" ++ n

/-- `os.path.split(f)[1]`: the part of the path after the last slash. -/
def basenameOf (p : String) : String :=
  String.mk ((p.data.reverse.takeWhile (fun c => !(c == '/'))).reverse)

/-- Python's `str.endswith`: suffix test on the characters. -/
def strEndsWith (s suffix : String) : Bool :=
  suffix.data.isSuffixOf s.data

/-- Python's lexicographic string comparison (by code points), used by
`sorted`. -/
abbrev strLe (a b : String) : Prop :=
  a.data ≤ b.data

/-- The image-browser listing: glob the directory for `*.*`, sort the paths,
keep only regular files, and map basename to full path (`fnames_map`). -/
def fnamesMap (imgs_dir : String) (entries : List DirEntry) :
    List (String × String) :=
  let globbed := (entries.filter (fun e => globMatch e.name)).map
    (fun e => (osPathJoin imgs_dir e.name, e.isFile))
  let sortedPaths := globbed.insertionSort (fun a b => a.1.data ≤ b.1.data)
  let files := sortedPaths.filter (fun e => e.2)
  files.map (fun e => (basenameOf e.1, e.1))

/-- How `load_image` displays the selected file. -/
inductive DisplayKind where
  | svg : DisplayKind
  | raster : DisplayKind
deriving DecidableEq

/-- The notebook's `load_image`: display as SVG when the selected file name
ends with `.svg`, otherwise as a raster image. -/
def load_image (file_name : String) : DisplayKind :=
  if strEndsWith file_name ".svg" then DisplayKind.svg else DisplayKind.raster

/-- C10: the image browser's map contains only regular files matched by the
glob, each keyed by the basename of its full path; the full paths appear in
lexicographically sorted order; and a selected file is displayed as SVG if
and only if its name ends with `.svg`, as a raster image otherwise. -/
theorem image_browser_spec (imgs_dir : String) (entries : List DirEntry) :
    (∀ p ∈ fnamesMap imgs_dir entries, ∃ e ∈ entries,
        e.isFile = true ∧ globMatch e.name = true ∧
        p.2 = osPathJoin imgs_dir e.name ∧ p.1 = basenameOf p.2) ∧
      ((fnamesMap imgs_dir entries).map Prod.snd).Pairwise strLe ∧
      ∀ f : String, (load_image f = DisplayKind.svg ↔ strEndsWith f ".svg" = true) := by
  haveI hTot : IsTotal (String × Bool) (fun a b => a.1.data ≤ b.1.data) :=
    ⟨fun a b => (inferInstanceAs (IsTotal (List Char) (· ≤ ·))).total a.1.data b.1.data⟩
  haveI hTrans : IsTrans (String × Bool) (fun a b => a.1.data ≤ b.1.data) :=
    ⟨fun _ _ _ hab hbc => le_trans hab hbc⟩
  refine ⟨?_, ?_, ?_⟩
  · intro p hp
    unfold fnamesMap at hp
    rcases List.mem_map.mp hp with ⟨q, hq, rfl⟩
    have hq2 : q.2 = true := (List.mem_filter.mp hq).2
    have hq' := (List.mem_filter.mp hq).1
    have hq'' : q ∈ (entries.filter (fun e => globMatch e.name)).map
        (fun e => (osPathJoin imgs_dir e.name, e.isFile)) :=
      ((List.perm_insertionSort _ _).mem_iff).mp hq'
    rcases List.mem_map.mp hq'' with ⟨e, he, rfl⟩
    refine ⟨e, (List.mem_filter.mp he).1, ?_, (List.mem_filter.mp he).2, rfl, rfl⟩
    exact hq2
  · simp only [fnamesMap, List.pairwise_map]
    apply List.Pairwise.filter
    exact List.sorted_insertionSort _ _
  · intro f
    unfold load_image
    by_cases h : strEndsWith f ".svg" <;> simp [h]

/-- C10 witness: with entries `b.png` (file), `a.svg` (file), `z.dir`
(directory), `noext` (file, no dot), the map keeps the two matching files
sorted by path, and the two of them dispatch to SVG and raster display
respectively. -/
theorem image_browser_spec_witness :
    fnamesMap "histogram_imgs"
        [⟨"b.png", true⟩, ⟨"a.svg", true⟩, ⟨"z.dir", false⟩, ⟨"noext", true⟩] =
      [("a.svg", "histogram_imgs/a.svg"), ("b.png", "histogram_imgs/b.png")] ∧
      load_image "histogram_imgs/a.svg" = DisplayKind.svg ∧
      load_image "histogram_imgs/b.png" = DisplayKind.raster :=
  ⟨by decide,
    ((image_browser_spec "histogram_imgs"
        [⟨"b.png", true⟩, ⟨"a.svg", true⟩, ⟨"z.dir", false⟩,
          ⟨"noext", true⟩]).2.2 "histogram_imgs/a.svg").mpr (by decide),
    by decide⟩

end Distiller
